import Mathlib

/-!
Shallow embedding of the Hotelling spatial-competition Monte Carlo simulator
(`src/Hotelling.py`) and verification of its specification claims.

Modelling conventions:
* Python floats (positions, prices, costs) are modelled as rationals `ℚ`.
* The process-wide pseudo-random source is modelled as a stream `u : ℕ → ℚ`
  of successive unit draws (the values of Python's `random.random()`);
  `random.uniform(a, b)` is `a + (b - a) * u k` for the next draw `u k`.
* Fallible code (a Python exception such as `ValueError` from `min([])` or
  `IndexError` from an out-of-range list subscript) is modelled by `Option`:
  `none` means the call raises.
* Python `int` arguments that the code can receive as non-positive values
  (`num_simulations`) are modelled as `ℤ`; `range(n)` iterates `n.toNat` times.
-/

namespace Hotelling

/-- Python's `random.uniform a b`, expressed in terms of one unit draw `u`:
`a + (b - a) * u`. -/
def uniform (a b u : ℚ) : ℚ :=
  a + (b - a) * u

/-- The total delivered cost of firm `i` for a consumer at `consumer_position`:
`firm_prices[i] + abs(consumer_position - firm_positions[i]) * transport_cost`,
exactly the quantity accumulated into `costs` inside `consumer_choice`.
Out-of-range indices default to `0` (the code only ever indexes in range). -/
def totalCost (consumer_position : ℚ) (firm_positions firm_prices : List ℚ)
    (transport_cost : ℚ) (i : ℕ) : ℚ :=
  firm_prices.getD i 0 + |consumer_position - firm_positions.getD i 0| * transport_cost

/-- The `costs` list built by `consumer_choice`: one total cost per firm,
for `i in range(len(firm_positions))`. -/
def costsList (consumer_position : ℚ) (firm_positions firm_prices : List ℚ)
    (transport_cost : ℚ) : List ℚ :=
  (List.range firm_positions.length).map
    (totalCost consumer_position firm_positions firm_prices transport_cost)

/-- Python's `min` on a list: `none` on the empty list (where `min([])` raises
`ValueError`), otherwise the left fold of binary `min` over the elements. -/
def listMin : List ℚ → Option ℚ
  | [] => none
  | a :: l => some (l.foldl min a)

/-- Python's `list.index a`: the index of the first occurrence of `a`.
(The code only calls it with an element known to occur.) -/
def firstIdxOf : List ℚ → ℚ → ℕ
  | [], _ => 0
  | b :: l, a => if b = a then 0 else firstIdxOf l a + 1

/-- `consumer_choice` from the source: build the per-firm `costs` list and
return `costs.index(min(costs))`; `none` models the `ValueError` raised by
`min` on an empty firm list. -/
def consumer_choice (consumer_position : ℚ) (firm_positions firm_prices : List ℚ)
    (transport_cost : ℚ) : Option ℕ :=
  match listMin (costsList consumer_position firm_positions firm_prices transport_cost) with
  | none => none
  | some m => some (firstIdxOf (costsList consumer_position firm_positions firm_prices transport_cost) m)

/-- `generate_consumers` from the source: `num_consumers` independent draws
`random.uniform(0, 1)`, taken as the first `num_consumers.toNat` unit draws of
the stream `u` (for non-positive `num_consumers`, Python's `range` is empty and
the function returns the empty list). -/
def generate_consumers (num_consumers : ℤ) (u : ℕ → ℚ) : List ℚ :=
  (List.range num_consumers.toNat).map (fun i => uniform 0 1 (u i))

/-- Increment the entry at index `i` of a count list
(`firm_customers[chosen_firm] += 1`). Out of range, the list is unchanged
(the code only ever increments in range). -/
def incrAt : List ℕ → ℕ → List ℕ
  | [], _ => []
  | a :: l, 0 => (a + 1) :: l
  | a :: l, n + 1 => a :: incrAt l n

/-- The consumer loop of `simulate_market`: fold over the consumers,
incrementing the chosen firm's count; a failing `consumer_choice` aborts. -/
def simulateLoop (firm_positions firm_prices : List ℚ) (transport_cost : ℚ) :
    List ℚ → List ℕ → Option (List ℕ)
  | [], acc => some acc
  | c :: cs, acc =>
    match consumer_choice c firm_positions firm_prices transport_cost with
    | none => none
    | some j => simulateLoop firm_positions firm_prices transport_cost cs (incrAt acc j)

/-- `simulate_market` from the source: start from `[0] * len(firm_positions)`
and assign each consumer to its chosen firm. -/
def simulate_market (consumers firm_positions firm_prices : List ℚ)
    (transport_cost : ℚ) : Option (List ℕ) :=
  simulateLoop firm_positions firm_prices transport_cost consumers
    (List.replicate firm_positions.length 0)

/-- `calculate_firm_profit` from the source: run `simulate_market`, then
`profit[i] = customers_per_firm[i] * firm_prices[i]` for
`i in range(len(firm_positions))`. -/
def calculate_firm_profit (firm_positions firm_prices consumers : List ℚ)
    (transport_cost : ℚ) : Option (List ℚ) :=
  match simulate_market consumers firm_positions firm_prices transport_cost with
  | none => none
  | some counts =>
    some ((List.range firm_positions.length).map
      (fun i => (counts.getD i 0 : ℚ) * firm_prices.getD i 0))

/-- One candidate's profit as the source reads it: `all_profits[2]`, the entry
at the hard-coded index 2 (`none` models the `IndexError` when the extended
firm list has fewer than three firms). -/
def trialProfit (test_positions test_prices consumers : List ℚ)
    (transport_cost : ℚ) : Option ℚ :=
  (calculate_firm_profit test_positions test_prices consumers transport_cost).bind
    (fun l => l.get? 2)

/-- The trial loop of `monte_carlo_optimization`: `n` remaining trials, `k`
trials already performed (so trial `k` consumes unit draws `u (2*k)` for the
position and `u (2*k + 1)` for the price), and the current
`(best_position, best_price, best_profit)` triple. -/
def mcLoop (existing_positions existing_prices consumers : List ℚ)
    (transport_cost : ℚ) (u : ℕ → ℚ) :
    ℕ → ℕ → ℚ × ℚ × ℚ → Option (ℚ × ℚ × ℚ)
  | 0, _, best => some best
  | n + 1, k, best =>
    match trialProfit (existing_positions ++ [uniform 0 1 (u (2 * k))])
        (existing_prices ++ [uniform 5 20 (u (2 * k + 1))]) consumers transport_cost with
    | none => none
    | some new_firm_profit =>
      mcLoop existing_positions existing_prices consumers transport_cost u n (k + 1)
        (if new_firm_profit > best.2.2
          then (uniform 0 1 (u (2 * k)), uniform 5 20 (u (2 * k + 1)), new_firm_profit)
          else best)

/-- `monte_carlo_optimization` from the source: starting from the baseline
`best_profit = 0, best_position = 0, best_price = 0`, run `num_simulations`
trials (none when `num_simulations ≤ 0`, matching Python's empty `range`) and
return `(best_position, best_price, best_profit)`. -/
def monte_carlo_optimization (existing_positions existing_prices consumers : List ℚ)
    (transport_cost : ℚ) (num_simulations : ℤ) (u : ℕ → ℚ) : Option (ℚ × ℚ × ℚ) :=
  mcLoop existing_positions existing_prices consumers transport_cost u
    num_simulations.toNat 0 (0, 0, 0)

/-- One candidate's profit as the spec's words describe it: the profit of the
appended candidate itself, i.e. the last entry of the profit list
(spec 4.5: "append the candidate as a new firm to existing_firms; compute that
firm's profit"). This is the reference definition a refinement claim compares
`trialProfit` against. -/
def trialProfitLast (test_positions test_prices consumers : List ℚ)
    (transport_cost : ℚ) : Option ℚ :=
  (calculate_firm_profit test_positions test_prices consumers transport_cost).bind
    (fun l => l.get? (l.length - 1))

/-- The trial loop of the spec-described optimizer `optimize_entrant`:
identical to `mcLoop` except that each trial reads the appended candidate's
own (last) profit instead of `all_profits[2]`. -/
def oeLoop (existing_positions existing_prices consumers : List ℚ)
    (transport_cost : ℚ) (u : ℕ → ℚ) :
    ℕ → ℕ → ℚ × ℚ × ℚ → Option (ℚ × ℚ × ℚ)
  | 0, _, best => some best
  | n + 1, k, best =>
    match trialProfitLast (existing_positions ++ [uniform 0 1 (u (2 * k))])
        (existing_prices ++ [uniform 5 20 (u (2 * k + 1))]) consumers transport_cost with
    | none => none
    | some new_firm_profit =>
      oeLoop existing_positions existing_prices consumers transport_cost u n (k + 1)
        (if new_firm_profit > best.2.2
          then (uniform 0 1 (u (2 * k)), uniform 5 20 (u (2 * k + 1)), new_firm_profit)
          else best)

/-- The optimizer as the spec's words describe it (spec 4.5 `optimize_entrant`):
same Monte Carlo search, but each trial evaluates the appended candidate's own
profit. Used as the reference of the refinement claim about which profit the
source compares. -/
def optimize_entrant (existing_positions existing_prices consumers : List ℚ)
    (transport_cost : ℚ) (num_simulations : ℤ) (u : ℕ → ℚ) : Option (ℚ × ℚ × ℚ) :=
  oeLoop existing_positions existing_prices consumers transport_cost u
    num_simulations.toNat 0 (0, 0, 0)

/-! ### Lemmas about Python's `min` (left fold of binary `min`) -/

theorem foldl_min_le_init : ∀ (l : List ℚ) (a : ℚ), l.foldl min a ≤ a := by
  intro l
  induction l with
  | nil => intro a; exact le_refl a
  | cons b l ih =>
    intro a
    have h1 : (b :: l).foldl min a = l.foldl min (min a b) := rfl
    rw [h1]
    exact le_trans (ih (min a b)) (min_le_left a b)

theorem foldl_min_le_mem : ∀ (l : List ℚ) (a x : ℚ), x ∈ l → l.foldl min a ≤ x := by
  intro l
  induction l with
  | nil => intro a x hx; exact absurd hx (List.not_mem_nil x)
  | cons b l ih =>
    intro a x hx
    rcases List.mem_cons.mp hx with h | h
    · subst h
      exact le_trans (foldl_min_le_init l (min a x)) (min_le_right a x)
    · exact ih (min a b) x h

theorem foldl_min_eq_or_mem : ∀ (l : List ℚ) (a : ℚ), l.foldl min a = a ∨ l.foldl min a ∈ l := by
  intro l
  induction l with
  | nil => intro a; exact Or.inl rfl
  | cons b l ih =>
    intro a
    have h1 : (b :: l).foldl min a = l.foldl min (min a b) := rfl
    rcases ih (min a b) with h | h
    · rcases le_total a b with hab | hab
      · left; rw [h1, h, min_eq_left hab]
      · right; rw [h1, h, min_eq_right hab]; exact List.mem_cons_self b l
    · right; rw [h1]; exact List.mem_cons_of_mem b h

/-! ### Lemmas about Python's `list.index` (`firstIdxOf`) -/

theorem firstIdxOf_lt_length : ∀ (l : List ℚ) (a : ℚ), a ∈ l → firstIdxOf l a < l.length := by
  intro l
  induction l with
  | nil => intro a ha; exact absurd ha (List.not_mem_nil a)
  | cons b l ih =>
    intro a ha
    by_cases hb : b = a
    · simp [firstIdxOf, hb]
    · have ha' : a ∈ l := by
        rcases List.mem_cons.mp ha with h | h
        · exact absurd h.symm hb
        · exact h
      simp only [firstIdxOf, if_neg hb, List.length_cons]
      exact Nat.succ_lt_succ (ih a ha')

theorem getD_firstIdxOf : ∀ (l : List ℚ) (a : ℚ), a ∈ l → l.getD (firstIdxOf l a) 0 = a := by
  intro l
  induction l with
  | nil => intro a ha; exact absurd ha (List.not_mem_nil a)
  | cons b l ih =>
    intro a ha
    by_cases hb : b = a
    · simp [firstIdxOf, hb]
    · have ha' : a ∈ l := by
        rcases List.mem_cons.mp ha with h | h
        · exact absurd h.symm hb
        · exact h
      simp only [firstIdxOf, if_neg hb, List.getD_cons_succ]
      exact ih a ha'

theorem getD_lt_firstIdxOf :
    ∀ (l : List ℚ) (a : ℚ) (i : ℕ), i < firstIdxOf l a → l.getD i 0 ≠ a := by
  intro l
  induction l with
  | nil => intro a i hi; simp [firstIdxOf] at hi
  | cons b l ih =>
    intro a i hi
    by_cases hb : b = a
    · simp [firstIdxOf, hb] at hi
    · simp only [firstIdxOf, if_neg hb] at hi
      cases i with
      | zero => simpa using hb
      | succ i =>
        simp only [List.getD_cons_succ]
        exact ih a i (Nat.lt_of_succ_lt_succ hi)

/-! ### Lemmas about the per-firm cost list of `consumer_choice` -/

theorem costsList_length (x : ℚ) (fps fpr : List ℚ) (t : ℚ) :
    (costsList x fps fpr t).length = fps.length := by
  simp [costsList]

theorem costsList_getD (x : ℚ) (fps fpr : List ℚ) (t : ℚ) (i : ℕ) (hi : i < fps.length) :
    (costsList x fps fpr t).getD i 0 = totalCost x fps fpr t i := by
  simp [costsList, List.getD_eq_getElem?_getD, List.getElem?_map, List.getElem?_range, hi]

theorem totalCost_mem_costsList (x : ℚ) (fps fpr : List ℚ) (t : ℚ) (i : ℕ)
    (hi : i < fps.length) :
    totalCost x fps fpr t i ∈ costsList x fps fpr t := by
  exact List.mem_map_of_mem _ (List.mem_range.mpr hi)

/-- Core specification of `consumer_choice`: on a non-empty firm list it
returns the index of a firm minimizing total delivered cost, and on ties the
lowest such index (every earlier firm has strictly larger cost). -/
theorem consumer_choice_spec (x : ℚ) (fps fpr : List ℚ) (t : ℚ) (h : fps ≠ []) :
    ∃ j, consumer_choice x fps fpr t = some j ∧ j < fps.length ∧
      (∀ i < fps.length, totalCost x fps fpr t j ≤ totalCost x fps fpr t i) ∧
      (∀ i < j, totalCost x fps fpr t j < totalCost x fps fpr t i) := by
  have hlen : (costsList x fps fpr t).length = fps.length := costsList_length x fps fpr t
  have hpos : 0 < (costsList x fps fpr t).length := by
    rw [hlen]
    exact List.length_pos.mpr h
  obtain ⟨c, rest, hcons⟩ := List.exists_cons_of_ne_nil (List.length_pos.mp hpos)
  have hmin : listMin (costsList x fps fpr t) = some (rest.foldl min c) := by
    rw [hcons]; rfl
  have hmem : rest.foldl min c ∈ costsList x fps fpr t := by
    rw [hcons]
    rcases foldl_min_eq_or_mem rest c with hh | hh
    · rw [hh]; exact List.mem_cons_self c rest
    · exact List.mem_cons_of_mem c hh
  have hle : ∀ y ∈ costsList x fps fpr t, rest.foldl min c ≤ y := by
    intro y hy
    rw [hcons] at hy
    rcases List.mem_cons.mp hy with hh | hh
    · rw [hh]; exact foldl_min_le_init rest c
    · exact foldl_min_le_mem rest c y hh
  refine ⟨firstIdxOf (costsList x fps fpr t) (rest.foldl min c), ?_, ?_, ?_, ?_⟩
  · unfold consumer_choice
    rw [hmin]
  · have := firstIdxOf_lt_length _ _ hmem
    rwa [hlen] at this
  · intro i hi
    have hj : firstIdxOf (costsList x fps fpr t) (rest.foldl min c) < fps.length := by
      have := firstIdxOf_lt_length _ _ hmem
      rwa [hlen] at this
    have hjval : totalCost x fps fpr t (firstIdxOf (costsList x fps fpr t) (rest.foldl min c))
        = rest.foldl min c := by
      rw [← costsList_getD x fps fpr t _ hj]
      exact getD_firstIdxOf _ _ hmem
    rw [hjval]
    exact hle _ (totalCost_mem_costsList x fps fpr t i hi)
  · intro i hi
    have hj : firstIdxOf (costsList x fps fpr t) (rest.foldl min c) < fps.length := by
      have := firstIdxOf_lt_length _ _ hmem
      rwa [hlen] at this
    have hjval : totalCost x fps fpr t (firstIdxOf (costsList x fps fpr t) (rest.foldl min c))
        = rest.foldl min c := by
      rw [← costsList_getD x fps fpr t _ hj]
      exact getD_firstIdxOf _ _ hmem
    have hilt : i < fps.length := lt_trans hi hj
    have hne : totalCost x fps fpr t i ≠ rest.foldl min c := by
      rw [← costsList_getD x fps fpr t i hilt]
      exact getD_lt_firstIdxOf _ _ i hi
    have hge : rest.foldl min c ≤ totalCost x fps fpr t i :=
      hle _ (totalCost_mem_costsList x fps fpr t i hilt)
    rw [hjval]
    exact lt_of_le_of_ne hge (fun hEq => hne hEq.symm)

/-- On a non-empty firm list, `consumer_choice` always succeeds and returns an
in-range firm index. -/
theorem consumer_choice_isSome (x : ℚ) (fps fpr : List ℚ) (t : ℚ) (h : fps ≠ []) :
    ∃ j, consumer_choice x fps fpr t = some j ∧ j < fps.length := by
  obtain ⟨j, hj1, hj2, _, _⟩ := consumer_choice_spec x fps fpr t h
  exact ⟨j, hj1, hj2⟩

/-! ### Lemmas about count increments and the consumer loop -/

theorem incrAt_length : ∀ (l : List ℕ) (i : ℕ), (incrAt l i).length = l.length := by
  intro l
  induction l with
  | nil => intro i; rfl
  | cons a l ih =>
    intro i
    cases i with
    | zero => rfl
    | succ i => simp [incrAt, ih i]

theorem incrAt_sum : ∀ (l : List ℕ) (i : ℕ), i < l.length → (incrAt l i).sum = l.sum + 1 := by
  intro l
  induction l with
  | nil => intro i hi; simp at hi
  | cons a l ih =>
    intro i hi
    cases i with
    | zero => simp [incrAt]; omega
    | succ i =>
      have hi' : i < l.length := by simpa using hi
      simp [incrAt, ih i hi']
      omega

/-- Invariant of the consumer-assignment loop: with a non-empty firm list and
an accumulator of the right length, the loop succeeds, preserves the length,
and adds exactly one customer per consumer. -/
theorem simulateLoop_spec (fps fpr : List ℚ) (t : ℚ) (h : fps ≠ []) :
    ∀ (cs : List ℚ) (acc : List ℕ), acc.length = fps.length →
      ∃ out, simulateLoop fps fpr t cs acc = some out ∧
        out.length = fps.length ∧ out.sum = acc.sum + cs.length := by
  intro cs
  induction cs with
  | nil =>
    intro acc hacc
    exact ⟨acc, rfl, hacc, by simp⟩
  | cons c cs ih =>
    intro acc hacc
    obtain ⟨j, hj, hjlt⟩ := consumer_choice_isSome c fps fpr t h
    have hlen : (incrAt acc j).length = fps.length := by rw [incrAt_length]; exact hacc
    obtain ⟨out, hout, houtlen, houtsum⟩ := ih (incrAt acc j) hlen
    refine ⟨out, ?_, houtlen, ?_⟩
    · simp only [simulateLoop, hj]
      exact hout
    · rw [houtsum, incrAt_sum acc j (by rw [hacc]; exact hjlt)]
      simp [List.length_cons]
      omega

/-- With a non-empty firm list, `simulate_market` succeeds with one count per
firm, and the counts sum to the number of consumers. -/
theorem simulate_market_spec (consumers fps fpr : List ℚ) (t : ℚ) (h : fps ≠ []) :
    ∃ counts, simulate_market consumers fps fpr t = some counts ∧
      counts.length = fps.length ∧ counts.sum = consumers.length := by
  obtain ⟨out, hout, hlen, hsum⟩ := simulateLoop_spec fps fpr t h consumers
    (List.replicate fps.length 0) (by simp)
  refine ⟨out, hout, hlen, ?_⟩
  rw [hsum]
  simp

/-- With a non-empty firm list, `calculate_firm_profit` succeeds with one
profit entry per firm. -/
theorem calculate_firm_profit_spec (fps fpr consumers : List ℚ) (t : ℚ) (h : fps ≠ []) :
    ∃ l, calculate_firm_profit fps fpr consumers t = some l ∧ l.length = fps.length := by
  obtain ⟨counts, hcounts, _, _⟩ := simulate_market_spec consumers fps fpr t h
  refine ⟨(List.range fps.length).map
      (fun i => (counts.getD i 0 : ℚ) * fpr.getD i 0), ?_, ?_⟩
  · unfold calculate_firm_profit
    rw [hcounts]
  · simp

/-! ### Lemmas about the Monte Carlo trial loop -/

/-- The running best profit never decreases over the trial loop. -/
theorem mcLoop_profit_mono (eps epr consumers : List ℚ) (t : ℚ) (u : ℕ → ℚ) :
    ∀ (n k : ℕ) (b b' : ℚ × ℚ × ℚ),
      mcLoop eps epr consumers t u n k b = some b' → b.2.2 ≤ b'.2.2 := by
  intro n
  induction n with
  | zero =>
    intro k b b' hb
    simp only [mcLoop, Option.some.injEq] at hb
    rw [← hb]
  | succ n ih =>
    intro k b b' hb
    simp only [mcLoop] at hb
    cases htp : trialProfit (eps ++ [uniform 0 1 (u (2 * k))])
        (epr ++ [uniform 5 20 (u (2 * k + 1))]) consumers t with
    | none => rw [htp] at hb; simp at hb
    | some p =>
      rw [htp] at hb
      simp only [] at hb
      have hrec := ih (k + 1) _ b' hb
      by_cases hp : p > b.2.2
      · rw [if_pos hp] at hrec
        exact le_trans (le_of_lt hp) hrec
      · rwa [if_neg hp] at hrec

/-- Running `n + m` trials is running `n` trials and then `m` more, with the
trial counter advanced accordingly. -/
theorem mcLoop_add (eps epr consumers : List ℚ) (t : ℚ) (u : ℕ → ℚ) :
    ∀ (n m k : ℕ) (b : ℚ × ℚ × ℚ),
      mcLoop eps epr consumers t u (n + m) k b
        = (mcLoop eps epr consumers t u n k b).bind
            (fun b2 => mcLoop eps epr consumers t u m (k + n) b2) := by
  intro n
  induction n with
  | zero =>
    intro m k b
    simp [mcLoop]
  | succ n ih =>
    intro m k b
    have hadd : n + 1 + m = (n + m) + 1 := by omega
    rw [hadd]
    simp only [mcLoop]
    cases htp : trialProfit (eps ++ [uniform 0 1 (u (2 * k))])
        (epr ++ [uniform 5 20 (u (2 * k + 1))]) consumers t with
    | none => simp
    | some p =>
      simp only []
      rw [ih m (k + 1)]
      have hk : k + 1 + n = k + (n + 1) := by omega
      rw [hk]

/-- With exactly two existing firms, the hard-coded profit lookup
`all_profits[2]` coincides with the appended candidate's own (last) profit, so
the source loop and the spec-described loop agree step by step. -/
theorem mcLoop_eq_oeLoop (eps epr consumers : List ℚ) (t : ℚ) (u : ℕ → ℚ)
    (h2 : eps.length = 2) :
    ∀ (n k : ℕ) (b : ℚ × ℚ × ℚ),
      mcLoop eps epr consumers t u n k b = oeLoop eps epr consumers t u n k b := by
  intro n
  induction n with
  | zero => intro k b; rfl
  | succ n ih =>
    intro k b
    simp only [mcLoop, oeLoop]
    have hne : (eps ++ [uniform 0 1 (u (2 * k))]) ≠ [] := by simp
    obtain ⟨l, hl, hlen⟩ := calculate_firm_profit_spec (eps ++ [uniform 0 1 (u (2 * k))])
      (epr ++ [uniform 5 20 (u (2 * k + 1))]) consumers t hne
    have hlen3 : l.length = 3 := by
      rw [hlen, List.length_append, h2]
      rfl
    have htp : trialProfit (eps ++ [uniform 0 1 (u (2 * k))])
        (epr ++ [uniform 5 20 (u (2 * k + 1))]) consumers t = l.get? 2 := by
      unfold trialProfit
      rw [hl]
      rfl
    have htpl : trialProfitLast (eps ++ [uniform 0 1 (u (2 * k))])
        (epr ++ [uniform 5 20 (u (2 * k + 1))]) consumers t = l.get? 2 := by
      unfold trialProfitLast
      rw [hl]
      simp [hlen3]
    rw [htp, htpl]
    cases l.get? 2 with
    | none => rfl
    | some p => exact ih (k + 1) _

/-- Range invariant for the trial loop: with at least two existing firms and
unit draws in `[0, 1]`, every trial's profit lookup succeeds, and the running
best triple stays either the baseline `(0, 0, 0)` or a sampled candidate with
position in `[0, 1]`, price in `[5, 20]` and strictly positive profit. -/
theorem mcLoop_range (eps epr consumers : List ℚ) (t : ℚ) (u : ℕ → ℚ)
    (h2 : 2 ≤ eps.length) (hu : ∀ m, 0 ≤ u m ∧ u m ≤ 1) :
    ∀ (n k : ℕ) (b : ℚ × ℚ × ℚ),
      0 ≤ b.2.2 →
      (b = (0, 0, 0) ∨ (0 ≤ b.1 ∧ b.1 ≤ 1 ∧ 5 ≤ b.2.1 ∧ b.2.1 ≤ 20 ∧ 0 < b.2.2)) →
      ∃ b', mcLoop eps epr consumers t u n k b = some b' ∧ 0 ≤ b'.2.2 ∧
        (b' = (0, 0, 0) ∨ (0 ≤ b'.1 ∧ b'.1 ≤ 1 ∧ 5 ≤ b'.2.1 ∧ b'.2.1 ≤ 20 ∧ 0 < b'.2.2)) := by
  intro n
  induction n with
  | zero =>
    intro k b hb0 hb
    exact ⟨b, rfl, hb0, hb⟩
  | succ n ih =>
    intro k b hb0 hb
    have hne : (eps ++ [uniform 0 1 (u (2 * k))]) ≠ [] := by simp
    obtain ⟨l, hl, hlen⟩ := calculate_firm_profit_spec (eps ++ [uniform 0 1 (u (2 * k))])
      (epr ++ [uniform 5 20 (u (2 * k + 1))]) consumers t hne
    have hlen3 : 2 < l.length := by
      rw [hlen, List.length_append]
      simp only [List.length_cons, List.length_nil]
      omega
    have htp : trialProfit (eps ++ [uniform 0 1 (u (2 * k))])
        (epr ++ [uniform 5 20 (u (2 * k + 1))]) consumers t = some (l.get ⟨2, hlen3⟩) := by
      unfold trialProfit
      rw [hl]
      simp [List.get?_eq_get hlen3]
    simp only [mcLoop, htp]
    by_cases hp : l.get ⟨2, hlen3⟩ > b.2.2
    · rw [if_pos hp]
      have hpos : (0 : ℚ) < l.get ⟨2, hlen3⟩ := lt_of_le_of_lt hb0 hp
      have hu1 := hu (2 * k)
      have hu2 := hu (2 * k + 1)
      refine ih (k + 1) _ (le_of_lt hpos) (Or.inr ?_)
      refine ⟨?_, ?_, ?_, ?_, hpos⟩
      · simp only [uniform]
        nlinarith [hu1.1, hu1.2]
      · simp only [uniform]
        nlinarith [hu1.1, hu1.2]
      · simp only [uniform]
        nlinarith [hu2.1, hu2.2]
      · simp only [uniform]
        nlinarith [hu2.1, hu2.2]
    · rw [if_neg hp]
      exact ih (k + 1) b hb0 hb

/-! ### Claim theorems -/

/-- C1 (counterexample): with three existing firms — firms at positions
`[1, 1, 1]` with prices `[10, 10, 1]`, one consumer at `0`, transport cost
`100`, one trial, all unit draws `0` (candidate at position `0`, price `5`) —
the candidate wins the consumer, yet the source compares `all_profits[2]`
(the third incumbent's profit, `0`) instead of the appended candidate's own
profit (`5`), so it returns the baseline while the spec-described optimizer
returns the profitable candidate: the claim is false as stated for arbitrary
existing-firm lists. -/
theorem claim_C1_counterexample :
    monte_carlo_optimization [1, 1, 1] [10, 10, 1] [0] 100 1 (fun _ => 0) = some (0, 0, 0) ∧
    optimize_entrant [1, 1, 1] [10, 10, 1] [0] 100 1 (fun _ => 0) = some (0, 5, 5) ∧
    monte_carlo_optimization [1, 1, 1] [10, 10, 1] [0] 100 1 (fun _ => 0) ≠
      optimize_entrant [1, 1, 1] [10, 10, 1] [0] 100 1 (fun _ => 0) := by
  have h1 : monte_carlo_optimization [1, 1, 1] [10, 10, 1] [0] 100 1 (fun _ => 0)
      = some (0, 0, 0) := by
    norm_num [monte_carlo_optimization, mcLoop, trialProfit, calculate_firm_profit,
      simulate_market, simulateLoop, consumer_choice, costsList, totalCost, listMin,
      firstIdxOf, incrAt, uniform, List.range_succ]
  have h2 : optimize_entrant [1, 1, 1] [10, 10, 1] [0] 100 1 (fun _ => 0)
      = some (0, 5, 5) := by
    norm_num [optimize_entrant, oeLoop, trialProfitLast, calculate_firm_profit,
      simulate_market, simulateLoop, consumer_choice, costsList, totalCost, listMin,
      firstIdxOf, incrAt, uniform, List.range_succ]
  refine ⟨h1, h2, ?_⟩
  rw [h1, h2]
  intro hEq
  simp only [Option.some.injEq, Prod.mk.injEq] at hEq
  exact absurd hEq.2.1 (by norm_num)

/-- C1 (amended): for every list of exactly two existing firms, every consumer
population, transport cost and trial count, the entrant optimizer appends the
sampled candidate as a new firm and the profit it compares against
`best_profit` is that appended candidate's own profit (the last entry of the
extended profit list): the source optimizer coincides with the spec-described
`optimize_entrant` whenever there are exactly two incumbents. -/
theorem claim_C1_two_incumbent_refinement (eps epr consumers : List ℚ) (t : ℚ)
    (n : ℤ) (u : ℕ → ℚ) (h2 : eps.length = 2) :
    monte_carlo_optimization eps epr consumers t n u
      = optimize_entrant eps epr consumers t n u := by
  unfold monte_carlo_optimization optimize_entrant
  exact mcLoop_eq_oeLoop eps epr consumers t u h2 n.toNat 0 (0, 0, 0)

/-- C1 (witness): the amended refinement applied to two incumbents at `0` and
`1` with prices `10` and `10`. -/
theorem claim_C1_witness :
    ([0, 1] : List ℚ).length = 2 ∧
    monte_carlo_optimization [0, 1] [10, 10] [] 0 1 (fun _ => 0)
      = optimize_entrant [0, 1] [10, 10] [] 0 1 (fun _ => 0) :=
  ⟨by decide, claim_C1_two_incumbent_refinement [0, 1] [10, 10] [] 0 1 (fun _ => 0) (by decide)⟩

/-- C2 (counterexample): with an empty list of existing firms and one trial,
the extended firm list has a single firm, so the hard-coded profit lookup
`all_profits[2]` is out of range and the optimizer raises (returns `none`)
instead of evaluating the entrant as a monopolist. -/
theorem claim_C2_counterexample :
    monte_carlo_optimization [] [] [] 0 1 (fun _ => 0) = none := by
  norm_num [monte_carlo_optimization, mcLoop, trialProfit, calculate_firm_profit,
    simulate_market, simulateLoop, uniform]

/-- C2 (amended): calling the entrant optimizer with an empty list of existing
firms and `num_trials > 0` is not valid: the first trial's profit lookup at
the hard-coded index 2 falls outside the length-1 extended profit list, so the
optimizer fails (raises `IndexError`, modelled as `none`) rather than
evaluating the entrant as the sole firm. -/
theorem claim_C2_empty_firms_fail (consumers : List ℚ) (t : ℚ) (n : ℤ) (u : ℕ → ℚ)
    (hn : 0 < n) :
    monte_carlo_optimization [] [] consumers t n u = none := by
  unfold monte_carlo_optimization
  obtain ⟨m, hm⟩ : ∃ m, n.toNat = m + 1 := ⟨n.toNat - 1, by omega⟩
  rw [hm]
  simp only [mcLoop]
  obtain ⟨l, hl, hlen⟩ := calculate_firm_profit_spec ([] ++ [uniform 0 1 (u (2 * 0))])
    ([] ++ [uniform 5 20 (u (2 * 0 + 1))]) consumers t (by simp)
  have htp : trialProfit ([] ++ [uniform 0 1 (u (2 * 0))])
      ([] ++ [uniform 5 20 (u (2 * 0 + 1))]) consumers t = none := by
    unfold trialProfit
    rw [hl]
    have hlen1 : l.length = 1 := by simpa using hlen
    simp only [Option.some_bind, List.get?_eq_none]
    omega
  rw [htp]

/-- C2 (witness): the amended statement applied to one trial on an empty
market with no consumers. -/
theorem claim_C2_witness :
    (0 : ℤ) < 1 ∧ monte_carlo_optimization [] [] [] 0 1 (fun _ => 0) = none :=
  ⟨by decide, claim_C2_empty_firms_fail [] 0 1 (fun _ => 0) (by decide)⟩

/-- C3: for every consumer position, every non-empty firm list and every
transport cost, `consumer_choice` returns the index of a firm whose total
delivered cost is less than or equal to every firm's, and every firm with a
smaller index has strictly greater cost (so on ties the lowest index wins). -/
theorem claim_C3_choice_rule (x : ℚ) (fps fpr : List ℚ) (t : ℚ) (h : fps ≠ []) :
    ∃ j, consumer_choice x fps fpr t = some j ∧ j < fps.length ∧
      (∀ i < fps.length, totalCost x fps fpr t j ≤ totalCost x fps fpr t i) ∧
      (∀ i < j, totalCost x fps fpr t j < totalCost x fps fpr t i) :=
  consumer_choice_spec x fps fpr t h

/-- C3 (witness): the spec's own example — consumer at `1/2`, firms at `0` and
`1` both priced `10`, transport cost `10`. -/
theorem claim_C3_witness :
    ([0, 1] : List ℚ) ≠ [] ∧
    ∃ j, consumer_choice (1 / 2) [0, 1] [10, 10] 10 = some j ∧ j < ([0, 1] : List ℚ).length ∧
      (∀ i < ([0, 1] : List ℚ).length,
        totalCost (1 / 2) [0, 1] [10, 10] 10 j ≤ totalCost (1 / 2) [0, 1] [10, 10] 10 i) ∧
      (∀ i < j, totalCost (1 / 2) [0, 1] [10, 10] 10 j < totalCost (1 / 2) [0, 1] [10, 10] 10 i) :=
  ⟨by simp, claim_C3_choice_rule (1 / 2) [0, 1] [10, 10] 10 (by simp)⟩

/-- C4: for every consumer population, non-empty firm list and transport cost,
`simulate_market` succeeds with one (naturally non-negative) count per firm,
and the counts sum to the number of consumers. -/
theorem claim_C4_conservation (consumers fps fpr : List ℚ) (t : ℚ) (h : fps ≠ []) :
    ∃ counts, simulate_market consumers fps fpr t = some counts ∧
      counts.length = fps.length ∧ counts.sum = consumers.length :=
  simulate_market_spec consumers fps fpr t h

/-- C4 (witness): four consumers split between firms at `0` and `1`. -/
theorem claim_C4_witness :
    ([0, 1] : List ℚ) ≠ [] ∧
    ∃ counts, simulate_market [0, 1/4, 3/4, 1] [0, 1] [10, 10] 10 = some counts ∧
      counts.length = ([0, 1] : List ℚ).length ∧
      counts.sum = ([0, 1/4, 3/4, 1] : List ℚ).length :=
  ⟨by simp, claim_C4_conservation [0, 1/4, 3/4, 1] [0, 1] [10, 10] 10 (by simp)⟩

/-- C5: for every input, calling the entrant optimizer with `num_trials ≤ 0`
returns exactly the baseline triple `(0, 0, 0)` and does not raise. -/
theorem claim_C5_zero_trials (eps epr consumers : List ℚ) (t : ℚ) (n : ℤ)
    (u : ℕ → ℚ) (hn : n ≤ 0) :
    monte_carlo_optimization eps epr consumers t n u = some (0, 0, 0) := by
  unfold monte_carlo_optimization
  rw [Int.toNat_of_nonpos hn]
  rfl

/-- C5 (witness): zero trials on a two-firm market. -/
theorem claim_C5_witness :
    (0 : ℤ) ≤ 0 ∧
    monte_carlo_optimization [0, 1] [10, 10] [] 0 0 (fun _ => 0) = some (0, 0, 0) :=
  ⟨by decide, claim_C5_zero_trials [0, 1] [10, 10] [] 0 0 (fun _ => 0) (by decide)⟩

/-- C6: whenever the entrant optimizer returns, the profit component of the
returned triple is at least `0` (the baseline profit is `0` and it is only
ever replaced by strictly larger trial profits). -/
theorem claim_C6_profit_nonneg (eps epr consumers : List ℚ) (t : ℚ) (n : ℤ)
    (u : ℕ → ℚ) (r : ℚ × ℚ × ℚ)
    (h : monte_carlo_optimization eps epr consumers t n u = some r) :
    0 ≤ r.2.2 := by
  have hmono := mcLoop_profit_mono eps epr consumers t u n.toNat 0 (0, 0, 0) r h
  simpa using hmono

/-- C6 (witness): the zero-trial run on an empty market. -/
theorem claim_C6_witness :
    monte_carlo_optimization [] [] [] 0 0 (fun _ => 0) = some (0, 0, 0) ∧
    (0 : ℚ) ≤ (((0 : ℚ), (0 : ℚ), (0 : ℚ)) : ℚ × ℚ × ℚ).2.2 := by
  have h0 : monte_carlo_optimization [] [] [] 0 0 (fun _ => 0) = some (0, 0, 0) := rfl
  exact ⟨h0, claim_C6_profit_nonneg [] [] [] 0 0 (fun _ => 0) (0, 0, 0) h0⟩

/-- C7: with the same seeded random source (the same unit-draw stream) and all
other inputs equal, whenever both runs return, running `N + k` trials
(`N ≥ 0`, `k > 0`) never yields a smaller profit than running `N` trials. -/
theorem claim_C7_trials_monotone (eps epr consumers : List ℚ) (t : ℚ) (u : ℕ → ℚ)
    (N k : ℤ) (hN : 0 ≤ N) (hk : 0 < k) (r r' : ℚ × ℚ × ℚ)
    (h : monte_carlo_optimization eps epr consumers t N u = some r)
    (h' : monte_carlo_optimization eps epr consumers t (N + k) u = some r') :
    r.2.2 ≤ r'.2.2 := by
  unfold monte_carlo_optimization at h h'
  have htn : (N + k).toNat = N.toNat + k.toNat := by omega
  rw [htn, mcLoop_add, h] at h'
  simp only [Option.some_bind] at h'
  exact mcLoop_profit_mono eps epr consumers t u k.toNat (0 + N.toNat) r r' h'

/-- C7 (witness): `N = 0`, `k = 1` on a two-firm market with no consumers;
both runs return the baseline. -/
theorem claim_C7_witness :
    (0 : ℤ) ≤ 0 ∧ (0 : ℤ) < 1 ∧
    monte_carlo_optimization [0, 1] [10, 10] [] 0 0 (fun _ => 0) = some (0, 0, 0) ∧
    monte_carlo_optimization [0, 1] [10, 10] [] 0 (0 + 1) (fun _ => 0) = some (0, 0, 0) ∧
    (((0 : ℚ), (0 : ℚ), (0 : ℚ)) : ℚ × ℚ × ℚ).2.2
      ≤ (((0 : ℚ), (0 : ℚ), (0 : ℚ)) : ℚ × ℚ × ℚ).2.2 := by
  have h0 : monte_carlo_optimization [0, 1] [10, 10] [] 0 0 (fun _ => 0)
      = some (0, 0, 0) := rfl
  have h1 : monte_carlo_optimization [0, 1] [10, 10] [] 0 (0 + 1) (fun _ => 0)
      = some (0, 0, 0) := by
    norm_num [monte_carlo_optimization, mcLoop, trialProfit, calculate_firm_profit,
      simulate_market, simulateLoop, uniform, List.range_succ]
  exact ⟨by decide, by decide, h0, h1,
    claim_C7_trials_monotone [0, 1] [10, 10] [] 0 (fun _ => 0) 0 1
      (by decide) (by decide) (0, 0, 0) (0, 0, 0) h0 h1⟩

/-- C8 (counterexample): `generate_consumers` performs no validation: at
`n = -1` it returns the empty list — a normal value — rather than failing
with an `InvalidArgument` error. -/
theorem claim_C8_counterexample :
    generate_consumers (-1) (fun _ => 0) = [] := rfl

/-- C8 (amended): for every integer `n ≤ 0`, `generate_consumers n` returns
the empty list (Python's `range(n)` is empty); it does not itself fail — the
`n > 0` validation lives in the interactive caller loop, outside the core. -/
theorem claim_C8_nonpositive_empty (n : ℤ) (u : ℕ → ℚ) (hn : n ≤ 0) :
    generate_consumers n u = [] := by
  unfold generate_consumers
  rw [Int.toNat_of_nonpos hn]
  rfl

/-- C8 (witness): the amended statement at `n = -2`. -/
theorem claim_C8_witness :
    (-2 : ℤ) ≤ 0 ∧ generate_consumers (-2) (fun _ => 0) = [] :=
  ⟨by decide, claim_C8_nonpositive_empty (-2) (fun _ => 0) (by decide)⟩

/-- C9: `consumer_choice` on an empty firm list fails for every consumer
position and transport cost (`min([])` raises, modelled as `none`), while on a
single-firm list it always returns index `0`. -/
theorem claim_C9_empty_and_single (x t p pr : ℚ) (fpr : List ℚ) :
    consumer_choice x [] fpr t = none ∧ consumer_choice x [p] [pr] t = some 0 := by
  constructor
  · rfl
  · simp [consumer_choice, costsList, listMin, firstIdxOf, List.range_succ]

/-- C10: for every run of the entrant optimizer with at least two existing
firms (so each trial's profit lookup is defined) and unit draws in `[0, 1]`,
the optimizer returns, and the returned triple is either exactly the baseline
`(0, 0, 0)` or has position in `[0, 1]`, price in `[5, 20]` and strictly
positive profit. -/
theorem claim_C10_range_invariant (eps epr consumers : List ℚ) (t : ℚ) (n : ℤ)
    (u : ℕ → ℚ) (h2 : 2 ≤ eps.length) (hu : ∀ m, 0 ≤ u m ∧ u m ≤ 1) :
    ∃ r, monte_carlo_optimization eps epr consumers t n u = some r ∧
      (r = (0, 0, 0) ∨ (0 ≤ r.1 ∧ r.1 ≤ 1 ∧ 5 ≤ r.2.1 ∧ r.2.1 ≤ 20 ∧ 0 < r.2.2)) := by
  obtain ⟨b', hb', _, hrange⟩ := mcLoop_range eps epr consumers t u h2 hu n.toNat 0
    (0, 0, 0) (le_refl 0) (Or.inl rfl)
  exact ⟨b', hb', hrange⟩

/-- C10 (witness): a zero-trial run on a two-firm market with the constant-`0`
draw stream. -/
theorem claim_C10_witness :
    2 ≤ ([0, 1] : List ℚ).length ∧
    ∃ r, monte_carlo_optimization [0, 1] [10, 10] [] 0 0 (fun _ => 0) = some r ∧
      (r = (0, 0, 0) ∨ (0 ≤ r.1 ∧ r.1 ≤ 1 ∧ 5 ≤ r.2.1 ∧ r.2.1 ≤ 20 ∧ 0 < r.2.2)) :=
  ⟨by decide, claim_C10_range_invariant [0, 1] [10, 10] [] 0 0 (fun _ => 0) (by decide)
    (fun _ => ⟨le_refl 0, by norm_num⟩)⟩

end Hotelling
